import Mathlib

/-!
Shallow embedding of the sortify audio-fingerprint core
(`src/cpp/src/spectrogram.cpp`, `src/cpp/src/peak_extraction.cpp`,
`src/cpp/src/fingerprint.cpp`) and proofs about it.

C++ `float` values are modelled as exact rationals (`ℚ`); machine-integer
widths (`unsigned int` = 32 bits, `size_t` = 64 bits) are modelled as `ℕ`
with explicit `% 2 ^ 32` / `% 2 ^ 64` where the C++ arithmetic wraps.
The FFTW transform is an external library call and is abstracted as a
magnitude oracle parameter.
-/

attribute [local semireducible] Rat.mul Rat.add Rat.sub Rat.inv Rat.ofScientific

set_option maxRecDepth 16000

namespace Sortify

/-- Outcome type mirroring the C++ `Result<T>` wrapper of `result.hpp`:
a success carrying a value, or a failure carrying an error message. -/
inductive Result (α : Type) where
  | success : α → Result α
  | failure : String → Result α
deriving DecidableEq

/-- The C++ accessor `Result::isSuccess`. -/
def Result.isSuccess {α : Type} : Result α → Bool
  | .success _ => true
  | .failure _ => false

/-- 2-D magnitude matrix, rows = frequency bins, columns = time windows
(`using Spectrogram = std::vector<std::vector<float>>`). -/
abbrev Spectrogram := List (List ℚ)

/-- Step size between consecutive windows, `spectrogram.cpp` lines 137-138:
`static_cast<unsigned int>(windowSize * (1.0f - overlap))` (truncation of a
non-negative float), bumped to `1` when zero. -/
def stepSizeOf (windowSize : ℕ) (overlap : ℚ) : ℕ :=
  let s := (⌊(windowSize : ℚ) * (1 - overlap)⌋).toNat
  if s = 0 then 1 else s

/-- Number of windows, `spectrogram.cpp` line 141:
`(samples.size() - windowSize) / stepSize + 1` computed in `size_t`
arithmetic (subtraction wraps modulo `2 ^ 64`), then stored into a 32-bit
`unsigned int`. -/
def numWindowsOf (numSamples windowSize stepSize : ℕ) : ℕ :=
  ((((numSamples + (2 ^ 64 - windowSize % 2 ^ 64)) % 2 ^ 64) / stepSize + 1) % 2 ^ 64) % 2 ^ 32

/-- The magnitude matrix built by the window loop, `spectrogram.cpp` lines
167-207: initialised to zeros (`Spectrogram(numBins, vector<float>(numWindows,
0.0f))`) and entry `[binIdx][windowIdx]` is overwritten with the FFT magnitude
only under the guard `minBin + binIdx < windowSize / 2`
(`sourceBinIdx < windowSamples.size() / 2`).  The magnitude of the
Hamming-windowed FFTW transform (an external library call) is abstracted as
the oracle `mag windowIdx sourceBinIdx`. -/
def spectroMatrix (mag : ℕ → ℕ → ℚ) (minBin windowSize numBins numWindows : ℕ) : Spectrogram :=
  (List.range numBins).map fun binIdx =>
    (List.range numWindows).map fun windowIdx =>
      if minBin + binIdx < windowSize / 2 then mag windowIdx (minBin + binIdx) else 0

/-- The function `generateSpectrogram`, `spectrogram.cpp` lines 103-218.  `binSize` is the
C++ `unsigned int` quotient `sampleRate / windowSize`; `minBin`/`maxBin` are
float `ceil`/`floor` of real-valued division by `binSize`, cast to
`unsigned int` and clamped. -/
def generateSpectrogram (mag : ℕ → ℕ → ℚ) (samples : List ℚ)
    (sampleRate windowSize : ℕ) (overlap minFreq maxFreq : ℚ) : Result Spectrogram :=
  if samples.isEmpty then .failure "Empty audio samples provided"
  else if sampleRate = 0 then .failure "Sample rate cannot be zero"
  else if windowSize = 0 then .failure "Window size cannot be zero"
  else if overlap < 0 ∨ 1 ≤ overlap then
    .failure "Overlap must be between 0.0 and 1.0 (exclusive)"
  else if minFreq < 0 then .failure "Minimum frequency cannot be negative"
  else if maxFreq ≤ minFreq then
    .failure "Maximum frequency must be greater than minimum frequency"
  else
    let stepSize := stepSizeOf windowSize overlap
    let numWindows := numWindowsOf samples.length windowSize stepSize
    if numWindows = 0 then .failure "Sample size too small for given window size"
    else
      let binSize := sampleRate / windowSize
      let minBin := max (⌈minFreq / (binSize : ℚ)⌉).toNat 0
      let maxBin := min (⌊maxFreq / (binSize : ℚ)⌋).toNat (windowSize / 2)
      if maxBin ≤ minBin then
        .failure "Invalid frequency range for given window size and sample rate"
      else
        let numBins := maxBin - minBin + 1
        let sg := spectroMatrix mag minBin windowSize numBins numWindows
        if sg.isEmpty ∨ (sg.headD []).isEmpty then
          .failure "Failed to generate spectrogram data"
        else .success sg

/-- A spectral peak, `audio_fingerprint.hpp`: frequency bin index, time
window index and magnitude, all stored as floats. -/
structure Peak where
  frequency : ℚ
  time : ℚ
  magnitude : ℚ
deriving DecidableEq

/-- The six logarithmic frequency bands of `peak_extraction.cpp` lines 24-35;
each boundary is `static_cast<unsigned int>(numFreqBins * c)` (truncation of
the non-negative product). -/
def freqBands (numFreqBins : ℕ) : List (ℕ × ℕ) :=
  [ (0, (⌊(numFreqBins : ℚ) * 0.1⌋).toNat),
    ((⌊(numFreqBins : ℚ) * 0.1⌋).toNat, (⌊(numFreqBins : ℚ) * 0.25⌋).toNat),
    ((⌊(numFreqBins : ℚ) * 0.25⌋).toNat, (⌊(numFreqBins : ℚ) * 0.4⌋).toNat),
    ((⌊(numFreqBins : ℚ) * 0.4⌋).toNat, (⌊(numFreqBins : ℚ) * 0.6⌋).toNat),
    ((⌊(numFreqBins : ℚ) * 0.6⌋).toNat, (⌊(numFreqBins : ℚ) * 0.8⌋).toNat),
    ((⌊(numFreqBins : ℚ) * 0.8⌋).toNat, numFreqBins) ]

/-- The band-validation loop of `peak_extraction.cpp` lines 37-50: the first
violated check determines the reported failure. -/
def validateBands (numFreqBins : ℕ) : List (ℕ × ℕ) → Option String
  | [] => none
  | band :: rest =>
    if band.2 ≤ band.1 then some "Invalid frequency band"
    else if numFreqBins < band.2 then some "Frequency band exceeds spectrogram size"
    else validateBands numFreqBins rest

/-- Matrix access `spectrogram[f][t]`, total with default `0` (in the C++ the indices are
always in range for a rectangular input). -/
def val (sg : Spectrogram) (f t : ℕ) : ℚ := (sg.getD f []).getD t 0

/-- The inner maximum scan of `peak_extraction.cpp` lines 60-70: start from
`maxPeak = {0.0f, t, 0.0f}` and `foundPeak = false`, update on strict
improvement `spectrogram[f][t] > maxPeak.magnitude`. -/
def bandScan (sg : Spectrogram) (t : ℕ) (fs : List ℕ) : Peak × Bool :=
  fs.foldl
    (fun acc f =>
      if acc.1.magnitude < val sg f t then (⟨(f : ℚ), (t : ℚ), val sg f t⟩, true) else acc)
    (⟨0, (t : ℚ), 0⟩, false)

/-- One band's candidate for column `t`: the scan runs over
`f ∈ [band.first, band.second) ∩ [0, numFreqBins)` and yields a peak only if
`foundPeak` was set (`peak_extraction.cpp` lines 59-74). -/
def bandCandidate (sg : Spectrogram) (t numFreqBins : ℕ) (band : ℕ × ℕ) : Option Peak :=
  let r := bandScan sg t (List.range' band.1 (min band.2 numFreqBins - band.1))
  if r.2 then some r.1 else none

/-- The `bandPeaks` list of column `t` (`peak_extraction.cpp` lines 56-75). -/
def columnCandidates (sg : Spectrogram) (t : ℕ) : List Peak :=
  (freqBands sg.length).filterMap (bandCandidate sg t sg.length)

/-- The per-column dynamic threshold, `peak_extraction.cpp` lines 85-89:
arithmetic mean of the band-local candidates. -/
def columnMean (sg : Spectrogram) (t : ℕ) : ℚ :=
  ((columnCandidates sg t).map Peak.magnitude).sum / ((columnCandidates sg t).length : ℚ)

/-- Peaks emitted for column `t`, `peak_extraction.cpp` lines 77-96: nothing
if the column has no candidates, otherwise the candidates strictly above the
column mean. -/
def emitColumn (sg : Spectrogram) (t : ℕ) : List Peak :=
  let bandPeaks := columnCandidates sg t
  if bandPeaks.isEmpty then []
  else bandPeaks.filter fun p => columnMean sg t < p.magnitude

/-- The column count `spectrogram[0].size()`. -/
def numTimeWindows (sg : Spectrogram) : ℕ := (sg.headD []).length

/-- The function `extractPeaks`, `peak_extraction.cpp` lines 8-106. -/
def extractPeaks (sg : Spectrogram) : Result (List Peak) :=
  if sg.isEmpty ∨ (sg.headD []).isEmpty then .failure "Empty spectrogram provided"
  else
    match validateBands sg.length (freqBands sg.length) with
    | some msg => .failure msg
    | none =>
      let peaks := ((List.range (numTimeWindows sg)).map (emitColumn sg)).flatten
      if peaks.isEmpty then .failure "No significant peaks found in spectrogram"
      else .success peaks

/-- One fingerprint hash entry, `audio_fingerprint.hpp`. -/
structure FingerprintHash where
  hash : ℕ
  time : ℚ
  songId : ℤ
deriving DecidableEq

/-- The cast `static_cast<uint32_t>` of a non-negative float: truncation toward zero
(= floor on non-negative values), reduced modulo `2 ^ 32`. -/
def toU32 (q : ℚ) : ℕ := (⌊q⌋).toNat % 2 ^ 32

/-- The 32-bit hash packing of `fingerprint.cpp` lines 128-130:
`(uint32(anchorFreq) & 0x3FF) << 22 | (uint32(targetFreq) & 0x3FF) << 12 |
(uint32(timeDelta * 10.0f) & 0xFFF)`. -/
def mkHash (anchorFreq targetFreq timeDelta : ℚ) : ℕ :=
  ((toU32 anchorFreq &&& 0x3FF) <<< 22) |||
    ((toU32 targetFreq &&& 0x3FF) <<< 12) |||
    (toU32 (timeDelta * 10) &&& 0xFFF)

/-- The inner target scan for one anchor, `fingerprint.cpp` lines 105-142:
runs while fewer than 5 targets are found; skips a candidate closer than 0.5
time units; breaks once a candidate is more than 3.0 time units ahead; skips a
candidate more than 30 frequency bins away; otherwise emits
`{hash, anchor.time, songId}` and counts the target. -/
def anchorHashes (anchor : Peak) (songId : ℤ) : ℕ → List Peak → List FingerprintHash
  | _, [] => []
  | numTargets, target :: rest =>
    if 5 ≤ numTargets then []
    else
      let timeDelta := target.time - anchor.time
      if timeDelta < 0.5 then anchorHashes anchor songId numTargets rest
      else if 3 < timeDelta then []
      else if 30 < |target.frequency - anchor.frequency| then
        anchorHashes anchor songId numTargets rest
      else
        ⟨mkHash anchor.frequency target.frequency timeDelta, anchor.time, songId⟩ ::
          anchorHashes anchor songId (numTargets + 1) rest

/-- All hash entries in emission order: anchor `i` is scanned against the
peaks after it (`fingerprint.cpp` lines 103-143). -/
def allHashes (songId : ℤ) : List Peak → List FingerprintHash
  | [] => []
  | anchor :: rest => anchorHashes anchor songId 0 rest ++ allHashes songId rest

/-- The `unordered_map<uint32_t, vector<FingerprintHash>>`, modelled as an
association list of buckets. -/
abbrev Fingerprint := List (ℕ × List FingerprintHash)

/-- The update `fingerprint[hash].push_back(entry)`: append to the bucket with this key,
creating the bucket if absent. -/
def insertHash : Fingerprint → FingerprintHash → Fingerprint
  | [], e => [(e.hash, [e])]
  | (k, es) :: m, e =>
    if k = e.hash then (k, es ++ [e]) :: m else (k, es) :: insertHash m e

/-- The map accumulated over the emission sequence. -/
def buildMap (es : List FingerprintHash) : Fingerprint := es.foldl insertHash []

/-- The function `createFingerprint`, `fingerprint.cpp` lines 76-153 (the
`Result`-returning version). -/
def createFingerprint (peaks : List Peak) (songId : ℤ) : Result Fingerprint :=
  if peaks.isEmpty then .failure "Empty peaks vector provided"
  else if songId < 0 then .failure "Invalid song ID"
  else
    let fingerprint := buildMap (allHashes songId peaks)
    if fingerprint.isEmpty then .failure "Failed to create any fingerprint hashes"
    else .success fingerprint

/-- Specification-side description of the target zone, written to compare with
the scan of `anchorHashes`: candidates are taken in order while their time
delta is at most 3.0 (the scan stops at the first candidate strictly beyond
3.0), those at least 0.5 time units ahead and within 30 frequency bins are
kept, and at most 5 targets are paired with the anchor. -/
def targetZonePairs (anchor : Peak) (rest : List Peak) : List Peak :=
  (((rest.takeWhile fun t => t.time - anchor.time ≤ 3).filter fun t =>
      0.5 ≤ t.time - anchor.time ∧ |t.frequency - anchor.frequency| ≤ 30).take 5)

/-- The built matrix has one row per frequency bin. -/
theorem spectroMatrix_length (mag : ℕ → ℕ → ℚ) (minBin windowSize numBins numWindows : ℕ) :
    (spectroMatrix mag minBin windowSize numBins numWindows).length = numBins := by
  simp [spectroMatrix]

/-- Every row of the built matrix has one entry per time window. -/
theorem spectroMatrix_mem_length {mag : ℕ → ℕ → ℚ} {minBin windowSize numBins numWindows : ℕ}
    {row : List ℚ} (h : row ∈ spectroMatrix mag minBin windowSize numBins numWindows) :
    row.length = numWindows := by
  simp only [spectroMatrix, List.mem_map, List.mem_range] at h
  obtain ⟨b, -, rfl⟩ := h
  simp

/-- The first row of a non-degenerate built matrix has one entry per window. -/
theorem spectroMatrix_headD_length (mag : ℕ → ℕ → ℚ) (minBin windowSize numBins numWindows : ℕ)
    (h : numBins ≠ 0) :
    ((spectroMatrix mag minBin windowSize numBins numWindows).headD []).length = numWindows := by
  have hne : spectroMatrix mag minBin windowSize numBins numWindows ≠ [] := by
    intro hnil
    have := spectroMatrix_length mag minBin windowSize numBins numWindows
    rw [hnil] at this
    exact h this.symm
  obtain ⟨r, rest, hcons⟩ := List.exists_cons_of_ne_nil hne
  rw [hcons]
  exact spectroMatrix_mem_length (by rw [hcons]; exact List.mem_cons_self r rest)

/-- When every validation passes and the window count and bin range are
non-degenerate, `generateSpectrogram` succeeds with exactly the matrix built
by the window loop. -/
theorem generateSpectrogram_success_eq
    (mag : ℕ → ℕ → ℚ) (samples : List ℚ) (sampleRate windowSize : ℕ)
    (overlap minFreq maxFreq : ℚ)
    (h1 : samples.isEmpty = false) (h2 : ¬sampleRate = 0) (h3 : ¬windowSize = 0)
    (h4 : ¬(overlap < 0 ∨ 1 ≤ overlap)) (h5 : ¬minFreq < 0) (h6 : ¬maxFreq ≤ minFreq)
    (h7 : ¬numWindowsOf samples.length windowSize (stepSizeOf windowSize overlap) = 0)
    (h8 : ¬(min (⌊maxFreq / ((sampleRate / windowSize : ℕ) : ℚ)⌋).toNat (windowSize / 2) ≤
        max (⌈minFreq / ((sampleRate / windowSize : ℕ) : ℚ)⌉).toNat 0)) :
    generateSpectrogram mag samples sampleRate windowSize overlap minFreq maxFreq =
      .success (spectroMatrix mag
        (max (⌈minFreq / ((sampleRate / windowSize : ℕ) : ℚ)⌉).toNat 0) windowSize
        (min (⌊maxFreq / ((sampleRate / windowSize : ℕ) : ℚ)⌋).toNat (windowSize / 2) -
          max (⌈minFreq / ((sampleRate / windowSize : ℕ) : ℚ)⌉).toNat 0 + 1)
        (numWindowsOf samples.length windowSize (stepSizeOf windowSize overlap))) := by
  have hbins : min (⌊maxFreq / ((sampleRate / windowSize : ℕ) : ℚ)⌋).toNat (windowSize / 2) -
      max (⌈minFreq / ((sampleRate / windowSize : ℕ) : ℚ)⌉).toNat 0 + 1 ≠ 0 := by omega
  unfold generateSpectrogram
  rw [h1]
  simp only [Bool.false_eq_true, if_false]
  rw [if_neg h2, if_neg h3, if_neg h4, if_neg h5, if_neg h6, if_neg h7, if_neg h8, if_neg]
  intro hor
  rcases hor with hor | hor
  · rw [List.isEmpty_iff] at hor
    have := spectroMatrix_length mag
      (max (⌈minFreq / ((sampleRate / windowSize : ℕ) : ℚ)⌉).toNat 0) windowSize
      (min (⌊maxFreq / ((sampleRate / windowSize : ℕ) : ℚ)⌋).toNat (windowSize / 2) -
        max (⌈minFreq / ((sampleRate / windowSize : ℕ) : ℚ)⌉).toNat 0 + 1)
      (numWindowsOf samples.length windowSize (stepSizeOf windowSize overlap))
    rw [hor] at this
    exact hbins this.symm
  · rw [List.isEmpty_iff] at hor
    have hlen := spectroMatrix_headD_length mag
      (max (⌈minFreq / ((sampleRate / windowSize : ℕ) : ℚ)⌉).toNat 0) windowSize
      (min (⌊maxFreq / ((sampleRate / windowSize : ℕ) : ℚ)⌋).toNat (windowSize / 2) -
        max (⌈minFreq / ((sampleRate / windowSize : ℕ) : ℚ)⌉).toNat 0 + 1)
      (numWindowsOf samples.length windowSize (stepSizeOf windowSize overlap)) hbins
    rw [hor, List.length_nil] at hlen
    exact h7 hlen.symm

/-- When the window fits into the signal and the window count fits a 32-bit
`unsigned int`, the `size_t` window-count computation agrees with the
mathematical `floor((N - windowSize) / stepSize) + 1`. -/
theorem numWindowsOf_eq_of_le (numSamples windowSize stepSize : ℕ)
    (hN : numSamples < 2 ^ 64) (hws : windowSize ≤ numSamples)
    (hfit : (numSamples - windowSize) / stepSize + 1 < 2 ^ 32) :
    numWindowsOf numSamples windowSize stepSize =
      (numSamples - windowSize) / stepSize + 1 := by
  unfold numWindowsOf
  have hp : (2 : ℕ) ^ 64 = 18446744073709551616 := by norm_num
  have h1 : windowSize % 2 ^ 64 = windowSize := Nat.mod_eq_of_lt (lt_of_le_of_lt hws hN)
  rw [h1]
  have h2 : (numSamples + (2 ^ 64 - windowSize)) % 2 ^ 64 = numSamples - windowSize := by
    rw [hp] at hN ⊢
    omega
  rw [h2]
  have hp32 : (2 : ℕ) ^ 32 = 4294967296 := by norm_num
  rw [hp32] at hfit
  rw [hp, hp32]
  generalize (numSamples - windowSize) / stepSize = q at hfit ⊢
  omega

/-- C1: the claim says `buildSpectrogram` rejects a window size larger than
the sample count with the "signal shorter than one window" failure, computed
via a zero window count.  In the code `samples.size() - windowSize` is
unsigned `size_t` arithmetic: for 240 samples and window size 2048 it wraps
around, the window count becomes 4294967295 instead of 0, and the failure
branch is never taken. -/
theorem C1_short_signal_not_rejected :
    numWindowsOf 240 2048 (stepSizeOf 2048 (1 / 2)) = 4294967295 ∧
    generateSpectrogram (fun _ _ => 0) (List.replicate 240 0) 44100 2048 (1 / 2) 20 5000 ≠
      Result.failure "Sample size too small for given window size" := by
  refine ⟨by decide, ?_⟩
  have h := generateSpectrogram_success_eq (fun _ _ => 0) (List.replicate 240 0) 44100 2048
    (1 / 2) 20 5000 (by decide) (by decide) (by decide) (by decide) (by decide) (by decide)
    (by decide) (by decide)
  rw [h]
  intro hc
  cases hc

/-- C4: the claim says every output bin in `[minBin, maxBin]` of every window
holds the magnitude of its DFT coefficient.  With 4 samples at rate 8, window
size 4, overlap 0 and band 0–5 Hz the clamp allows `maxBin = windowSize/2 =
2`, but the fill guard `sourceBinIdx < windowSize/2` skips that bin, so its
row stays all zeros even though the magnitude oracle returns 1 everywhere. -/
theorem C4_nyquist_row_left_zero :
    generateSpectrogram (fun _ _ => (1 : ℚ)) (List.replicate 4 1) 8 4 0 0 5 =
      Result.success [[1], [1], [0]] ∧ (1 : ℚ) ≠ 0 := by decide

/-- C7: for valid inputs (window fits the signal, window count representable
in 32 bits) a successful `generateSpectrogram` returns a rectangular matrix
with exactly `maxBin - minBin + 1` rows and exactly
`floor((N - windowSize) / stepSize) + 1` columns, where the step size is
`floor(windowSize * (1 - overlap))` bumped to a minimum of 1. -/
theorem C7_spectrogram_shape (mag : ℕ → ℕ → ℚ) (samples : List ℚ)
    (sampleRate windowSize : ℕ) (overlap minFreq maxFreq : ℚ) (sg : Spectrogram)
    (hN : samples.length < 2 ^ 64)
    (hws : windowSize ≤ samples.length)
    (hfit : (samples.length - windowSize) / stepSizeOf windowSize overlap + 1 < 2 ^ 32)
    (h : generateSpectrogram mag samples sampleRate windowSize overlap minFreq maxFreq =
      .success sg) :
    sg.length = min (⌊maxFreq / ((sampleRate / windowSize : ℕ) : ℚ)⌋).toNat (windowSize / 2) -
      max (⌈minFreq / ((sampleRate / windowSize : ℕ) : ℚ)⌉).toNat 0 + 1 ∧
    ∀ row ∈ sg, row.length =
      (samples.length - windowSize) / stepSizeOf windowSize overlap + 1 := by
  have hw := numWindowsOf_eq_of_le samples.length windowSize (stepSizeOf windowSize overlap)
    hN hws hfit
  simp only [generateSpectrogram] at h
  split_ifs at h
  injection h with h
  subst h
  refine ⟨spectroMatrix_length _ _ _ _ _, ?_⟩
  intro row hrow
  rw [spectroMatrix_mem_length hrow, hw]

/-- Witness for C7 at a concrete input: 8 samples at rate 8, window size 4,
overlap 0, band 0–3 Hz gives a 2 × 2 spectrogram. -/
theorem C7_spectrogram_shape_witness :
    ([[(1 : ℚ), 1], [1, 1]] : Spectrogram).length =
      min (⌊(3 : ℚ) / ((8 / 4 : ℕ) : ℚ)⌋).toNat (4 / 2) -
        max (⌈(0 : ℚ) / ((8 / 4 : ℕ) : ℚ)⌉).toNat 0 + 1 ∧
    ∀ row ∈ ([[(1 : ℚ), 1], [1, 1]] : Spectrogram), row.length =
      ((List.replicate (4 + 4) (1 : ℚ)).length - 4) / stepSizeOf 4 0 + 1 :=
  C7_spectrogram_shape (fun _ _ => 1) (List.replicate (4 + 4) 1) 8 4 0 0 3
    [[1, 1], [1, 1]] (by decide) (by decide) (by decide) (by decide)

/-- C2 counterexample: the claim says a pair whose time delta is exactly 3.0
is never emitted.  The code breaks only on `timeDelta > 3.0`, so two peaks
exactly 3 time units apart do produce a hash (and the call succeeds instead
of failing with zero hashes). -/
theorem C2_exact_boundary_pair_emitted :
    createFingerprint [⟨100, 0, 1⟩, ⟨100, 3, 1⟩] 1 =
      Result.success [(419840030, [⟨419840030, 0, 1⟩])] := by decide

/-- The inner scan with `n` targets already found equals the spec-side
takeWhile/filter/take description with budget `5 - n`. -/
theorem anchorHashes_eq_aux (anchor : Peak) (songId : ℤ) (rest : List Peak) (n : ℕ) :
    anchorHashes anchor songId n rest =
      ((((rest.takeWhile fun t => t.time - anchor.time ≤ 3).filter fun t =>
          0.5 ≤ t.time - anchor.time ∧ |t.frequency - anchor.frequency| ≤ 30).take
        (5 - n)).map fun t =>
        ⟨mkHash anchor.frequency t.frequency (t.time - anchor.time), anchor.time, songId⟩) := by
  induction rest generalizing n with
  | nil => simp [anchorHashes]
  | cons target rest ih =>
    by_cases h5 : 5 ≤ n
    · have hz : 5 - n = 0 := by omega
      simp [anchorHashes, h5, hz]
    · by_cases hlow : target.time - anchor.time < 0.5
      · have hkeep : target.time - anchor.time ≤ 3 :=
          le_trans (le_of_lt hlow) (by norm_num)
        have hkeep' : target.time ≤ 3 + anchor.time := by linarith
        simp [anchorHashes, h5, hlow, List.takeWhile_cons, hkeep, hkeep',
          not_le.mpr hlow, ih]
      · by_cases hhi : 3 < target.time - anchor.time
        · have hstop' : ¬target.time ≤ 3 + anchor.time := by
            intro hc
            have : target.time - anchor.time ≤ 3 := by linarith
            exact absurd hhi (not_lt.mpr this)
          simp [anchorHashes, h5, hlow, hhi, List.takeWhile_cons, not_le.mpr hhi, hstop']
        · by_cases hfreq : 30 < |target.frequency - anchor.frequency|
          · have hkeep : target.time - anchor.time ≤ 3 := not_lt.mp hhi
            have hkeep' : target.time ≤ 3 + anchor.time := by linarith
            simp [anchorHashes, h5, hlow, hhi, hfreq, List.takeWhile_cons, hkeep, hkeep',
              not_le.mpr hfreq, ih]
          · have hkeep : target.time - anchor.time ≤ 3 := not_lt.mp hhi
            have hkeep' : target.time ≤ 3 + anchor.time := by linarith
            have hbudget : 5 - n = (5 - (n + 1)) + 1 := by omega
            simp [anchorHashes, h5, hlow, hhi, hfreq, List.takeWhile_cons, hkeep, hkeep',
              not_lt.mp hlow, not_lt.mp hfreq, hbudget, List.take_succ_cons, ih]

/-- C2 (amended): for every anchor the forward scan emits exactly the hash
entries of the candidates taken in order while their time delta is at most
3.0 — so a pair at exactly 3.0 is emitted and the scan stops only strictly
beyond 3.0 — filtered to time delta at least 0.5 and frequency delta at most
30, capped at 5 targets per anchor. -/
theorem C2_target_zone_scan (anchor : Peak) (songId : ℤ) (rest : List Peak) :
    anchorHashes anchor songId 0 rest =
      ((targetZonePairs anchor rest).map fun t =>
        ⟨mkHash anchor.frequency t.frequency (t.time - anchor.time), anchor.time, songId⟩) :=
  anchorHashes_eq_aux anchor songId rest 0

/-- C3 counterexample: the claim says the low 12 bits are
`round(timeDelta * 10)`.  For a time delta of 2.75 the code's unsigned cast
truncates `27.5` to `27`, while round-to-nearest gives `28`. -/
theorem C3_truncation_counterexample :
    createFingerprint [⟨100, 0, 1⟩, ⟨100, 11 / 4, 1⟩] 1 =
      Result.success [(419840027, [⟨419840027, 0, 1⟩])] ∧
    (419840027 : ℕ) % 2 ^ 12 = 27 ∧ round ((11 / 4 : ℚ) * 10) = 28 := by decide

/-- The packed hash in additive form: disjoint bit fields add up. -/
theorem mkHash_eq_add (af tf td : ℚ) :
    mkHash af tf td =
      2 ^ 22 * ((⌊af⌋).toNat % 2 ^ 10) + 2 ^ 12 * ((⌊tf⌋).toNat % 2 ^ 10) +
        (⌊td * 10⌋).toNat % 2 ^ 12 := by
  have e10 : ∀ x : ℕ, x % 2 ^ 32 &&& 1023 = x % 2 ^ 10 := by
    intro x
    have h : (1023 : ℕ) = 2 ^ 10 - 1 := by norm_num
    rw [h, Nat.and_pow_two_sub_one_eq_mod, Nat.mod_mod_of_dvd]
    norm_num
  have e12 : ∀ x : ℕ, x % 2 ^ 32 &&& 4095 = x % 2 ^ 12 := by
    intro x
    have h : (4095 : ℕ) = 2 ^ 12 - 1 := by norm_num
    rw [h, Nat.and_pow_two_sub_one_eq_mod, Nat.mod_mod_of_dvd]
    norm_num
  have ha : (⌊af⌋).toNat % 2 ^ 10 < 2 ^ 10 := Nat.mod_lt _ (by norm_num)
  have hb : (⌊tf⌋).toNat % 2 ^ 10 < 2 ^ 10 := Nat.mod_lt _ (by norm_num)
  have hc : (⌊td * 10⌋).toNat % 2 ^ 12 < 2 ^ 12 := Nat.mod_lt _ (by norm_num)
  unfold mkHash toU32
  rw [e10, e10, e12, Nat.shiftLeft_eq, Nat.shiftLeft_eq, Nat.lor_assoc,
    mul_comm ((⌊af⌋).toNat % 2 ^ 10) (2 ^ 22), mul_comm ((⌊tf⌋).toNat % 2 ^ 10) (2 ^ 12),
    ← Nat.mul_add_lt_is_or hc, ← Nat.mul_add_lt_is_or (b := 2 ^ 12 * ((⌊tf⌋).toNat % 2 ^ 10) +
      (⌊td * 10⌋).toNat % 2 ^ 12) (by nlinarith), Nat.add_assoc]

/-- C3 (amended): the 32-bit hash packs bits 31–22 as the anchor frequency
bin masked to 10 bits, bits 21–12 as the target frequency bin masked to 10
bits, and bits 11–0 as `timeDelta * 10` truncated toward zero (not rounded
to nearest) and masked to 12 bits. -/
theorem C3_hash_bit_layout (af tf td : ℚ) :
    mkHash af tf td / 2 ^ 22 % 2 ^ 10 = (⌊af⌋).toNat % 2 ^ 10 ∧
    mkHash af tf td / 2 ^ 12 % 2 ^ 10 = (⌊tf⌋).toNat % 2 ^ 10 ∧
    mkHash af tf td % 2 ^ 12 = (⌊td * 10⌋).toNat % 2 ^ 12 ∧
    mkHash af tf td < 2 ^ 32 := by
  have ha : (⌊af⌋).toNat % 2 ^ 10 < 2 ^ 10 := Nat.mod_lt _ (by norm_num)
  have hb : (⌊tf⌋).toNat % 2 ^ 10 < 2 ^ 10 := Nat.mod_lt _ (by norm_num)
  have hc : (⌊td * 10⌋).toNat % 2 ^ 12 < 2 ^ 12 := Nat.mod_lt _ (by norm_num)
  rw [mkHash_eq_add]
  generalize (⌊af⌋).toNat % 2 ^ 10 = a at ha ⊢
  generalize (⌊tf⌋).toNat % 2 ^ 10 = b at hb ⊢
  generalize (⌊td * 10⌋).toNat % 2 ^ 12 = c at hc ⊢
  refine ⟨?_, ?_, ?_, ?_⟩ <;> omega

/-- Truncating the rational quotient of naturals is natural division. -/
theorem floor_nat_div_toNat (m k : ℕ) : (⌊(m : ℚ) / (k : ℚ)⌋).toNat = m / k := by
  rcases Nat.eq_zero_or_pos k with rfl | hk
  · simp
  · have h : ⌊((m : ℤ) : ℚ) / ((k : ℕ) : ℚ)⌋ = (m : ℤ) / (k : ℤ) :=
      Rat.floor_intCast_div_natCast (m : ℤ) k
    rw [Int.cast_natCast] at h
    rw [h, ← Int.ofNat_ediv, Int.toNat_ofNat]

/-- The truncated band boundaries of `freqBands` in natural-division form. -/
theorem freqBands_eq (n : ℕ) :
    freqBands n = [(0, n / 10), (n / 10, n / 4), (n / 4, 2 * n / 5), (2 * n / 5, 3 * n / 5),
      (3 * n / 5, 4 * n / 5), (4 * n / 5, n)] := by
  have e1 : (⌊(n : ℚ) * 0.1⌋).toNat = n / 10 := by
    rw [show (n : ℚ) * 0.1 = (n : ℚ) / ((10 : ℕ) : ℚ) by push_cast; ring, floor_nat_div_toNat]
  have e2 : (⌊(n : ℚ) * 0.25⌋).toNat = n / 4 := by
    rw [show (n : ℚ) * 0.25 = (n : ℚ) / ((4 : ℕ) : ℚ) by push_cast; ring, floor_nat_div_toNat]
  have e3 : (⌊(n : ℚ) * 0.4⌋).toNat = 2 * n / 5 := by
    rw [show (n : ℚ) * 0.4 = ((2 * n : ℕ) : ℚ) / ((5 : ℕ) : ℚ) by push_cast; ring,
      floor_nat_div_toNat]
  have e4 : (⌊(n : ℚ) * 0.6⌋).toNat = 3 * n / 5 := by
    rw [show (n : ℚ) * 0.6 = ((3 * n : ℕ) : ℚ) / ((5 : ℕ) : ℚ) by push_cast; ring,
      floor_nat_div_toNat]
  have e5 : (⌊(n : ℚ) * 0.8⌋).toNat = 4 * n / 5 := by
    rw [show (n : ℚ) * 0.8 = ((4 * n : ℕ) : ℚ) / ((5 : ℕ) : ℚ) by push_cast; ring,
      floor_nat_div_toNat]
  simp [freqBands, e1, e2, e3, e4, e5]

/-- With at least 10 frequency bins every band is valid. -/
theorem validateBands_none (n : ℕ) (h : 10 ≤ n) :
    validateBands n (freqBands n) = none := by
  rw [freqBands_eq]
  have c1 : ¬(n / 10 ≤ 0) := by omega
  have c1' : ¬(n < n / 10) := by omega
  have c2 : ¬(n / 4 ≤ n / 10) := by omega
  have c2' : ¬(n < n / 4) := by omega
  have c3 : ¬(2 * n / 5 ≤ n / 4) := by omega
  have c3' : ¬(n < 2 * n / 5) := by omega
  have c4 : ¬(3 * n / 5 ≤ 2 * n / 5) := by omega
  have c4' : ¬(n < 3 * n / 5) := by omega
  have c5 : ¬(4 * n / 5 ≤ 3 * n / 5) := by omega
  have c5' : ¬(n < 4 * n / 5) := by omega
  have c6 : ¬(n ≤ 4 * n / 5) := by omega
  simp [validateBands, c1, c1', c2, c2', c3, c3', c4, c4', c5, c5', c6]

/-- With fewer than 10 frequency bins the first band already has zero width
and validation reports it. -/
theorem validateBands_small (n : ℕ) (h : n < 10) :
    validateBands n (freqBands n) = some "Invalid frequency band" := by
  rw [freqBands_eq]
  have hz : n / 10 = 0 := by omega
  simp [validateBands, hz]

/-- On a non-degenerate spectrogram with at least 10 rows, `extractPeaks`
reduces to the per-column emission pipeline. -/
theorem extractPeaks_eq_of_valid (sg : Spectrogram) (h0 : sg.isEmpty = false)
    (h1 : (sg.headD []).isEmpty = false) (hn : 10 ≤ sg.length) :
    extractPeaks sg =
      if (((List.range (numTimeWindows sg)).map (emitColumn sg)).flatten).isEmpty then
        .failure "No significant peaks found in spectrogram"
      else .success (((List.range (numTimeWindows sg)).map (emitColumn sg)).flatten) := by
  unfold extractPeaks
  rw [if_neg, validateBands_none sg.length hn]
  intro hor
  rcases hor with hor | hor
  · rw [h0] at hor
    cases hor
  · rw [h1] at hor
    cases hor

/-- The scan never changes the time field of the running maximum. -/
theorem bandScan_time (sg : Spectrogram) (t : ℕ) (fs : List ℕ) :
    (bandScan sg t fs).1.time = (t : ℚ) := by
  suffices h : ∀ acc : Peak × Bool, acc.1.time = (t : ℚ) →
      (fs.foldl (fun acc f =>
        if acc.1.magnitude < val sg f t then (⟨(f : ℚ), (t : ℚ), val sg f t⟩, true) else acc)
        acc).1.time = (t : ℚ) by
    exact h _ rfl
  induction fs with
  | nil => intro acc hacc; exact hacc
  | cons f fs ih =>
    intro acc hacc
    by_cases hc : acc.1.magnitude < val sg f t
    · simp only [List.foldl_cons, hc, ite_true]
      exact ih _ rfl
    · simp only [List.foldl_cons, hc, ite_false]
      exact ih _ hacc

/-- The scan's running maximum only grows. -/
theorem bandScan_foldl_mono (sg : Spectrogram) (t : ℕ) (fs : List ℕ) (acc : Peak × Bool) :
    acc.1.magnitude ≤
      (fs.foldl (fun acc f =>
        if acc.1.magnitude < val sg f t then (⟨(f : ℚ), (t : ℚ), val sg f t⟩, true) else acc)
        acc).1.magnitude := by
  induction fs generalizing acc with
  | nil => exact le_refl _
  | cons f fs ih =>
    by_cases hc : acc.1.magnitude < val sg f t
    · simp only [List.foldl_cons, hc, ite_true]
      exact le_trans (le_of_lt hc) (ih _)
    · simp only [List.foldl_cons, hc, ite_false]
      exact ih acc

/-- Every scanned magnitude is bounded by the final running maximum. -/
theorem bandScan_foldl_ge (sg : Spectrogram) (t : ℕ) (fs : List ℕ) (acc : Peak × Bool) :
    ∀ f ∈ fs, val sg f t ≤
      (fs.foldl (fun acc f =>
        if acc.1.magnitude < val sg f t then (⟨(f : ℚ), (t : ℚ), val sg f t⟩, true) else acc)
        acc).1.magnitude := by
  induction fs generalizing acc with
  | nil => intro f hf; cases hf
  | cons g fs ih =>
    intro f hf
    rcases List.mem_cons.mp hf with rfl | hf
    · by_cases hc : acc.1.magnitude < val sg f t
      · simp only [List.foldl_cons, hc, ite_true]
        exact bandScan_foldl_mono sg t fs _
      · simp only [List.foldl_cons, hc, ite_false]
        exact le_trans (not_lt.mp hc) (bandScan_foldl_mono sg t fs acc)
    · by_cases hc : acc.1.magnitude < val sg g t <;>
        simp only [List.foldl_cons, hc, ite_true, ite_false] <;> exact ih _ f hf

/-- A band candidate carries its column index as time and dominates every
magnitude in the scanned index range. -/
theorem bandCandidate_spec {sg : Spectrogram} {t numFreqBins : ℕ} {band : ℕ × ℕ} {p : Peak}
    (h : bandCandidate sg t numFreqBins band = some p) :
    p.time = (t : ℚ) ∧
    ∀ f ∈ List.range' band.1 (min band.2 numFreqBins - band.1), val sg f t ≤ p.magnitude := by
  unfold bandCandidate at h
  by_cases hb : (bandScan sg t (List.range' band.1 (min band.2 numFreqBins - band.1))).2
  · rw [if_pos hb] at h
    injection h with h
    subst h
    exact ⟨bandScan_time sg t _, fun f hf => bandScan_foldl_ge sg t _ _ f hf⟩
  · rw [if_neg hb] at h
    cases h

/-- Every column candidate has the column index as its time. -/
theorem columnCandidates_time {sg : Spectrogram} {t : ℕ} {p : Peak}
    (h : p ∈ columnCandidates sg t) : p.time = (t : ℚ) := by
  unfold columnCandidates at h
  obtain ⟨band, -, hband⟩ := List.mem_filterMap.mp h
  exact (bandCandidate_spec hband).1

/-- At most six candidates per column (one per band). -/
theorem columnCandidates_length_le (sg : Spectrogram) (t : ℕ) :
    (columnCandidates sg t).length ≤ 6 := by
  unfold columnCandidates
  calc ((freqBands sg.length).filterMap (bandCandidate sg t sg.length)).length
      ≤ (freqBands sg.length).length := List.length_filterMap_le _ _
    _ = 6 := by rw [freqBands_eq]; rfl

/-- Members of `emitColumn` are candidates strictly above the column mean. -/
theorem emitColumn_mem {sg : Spectrogram} {t : ℕ} {p : Peak} (h : p ∈ emitColumn sg t) :
    p ∈ columnCandidates sg t ∧ columnMean sg t < p.magnitude := by
  unfold emitColumn at h
  by_cases hc : (columnCandidates sg t).isEmpty
  · rw [if_pos hc] at h
    cases h
  · rw [if_neg hc] at h
    have := List.mem_filter.mp h
    exact ⟨this.1, of_decide_eq_true this.2⟩

/-- A list of peaks all strictly above a bound sums to strictly more than
the bound times the length. -/
theorem length_mul_lt_sum_of_forall_lt (a : ℚ) (l : List Peak) (hne : l ≠ [])
    (hall : ∀ p ∈ l, a < p.magnitude) :
    (l.length : ℚ) * a < (l.map Peak.magnitude).sum := by
  induction l with
  | nil => exact absurd rfl hne
  | cons x xs ih =>
    rcases eq_or_ne xs [] with rfl | hxs
    · simpa using hall x (List.mem_cons_self x [])
    · have h1 : a < x.magnitude := hall x (List.mem_cons_self x xs)
      have h2 : (xs.length : ℚ) * a < (xs.map Peak.magnitude).sum :=
        ih hxs (fun p hp => hall p (List.mem_cons_of_mem x hp))
      push_cast [List.length_cons, List.map_cons, List.sum_cons]
      nlinarith

/-- In a non-empty list, strictly fewer elements can strictly exceed the
arithmetic mean than there are elements. -/
theorem length_filter_gt_mean_lt (l : List Peak) (hne : l ≠ []) :
    (l.filter fun p => ((l.map Peak.magnitude).sum / (l.length : ℚ)) < p.magnitude).length <
      l.length := by
  set a : ℚ := (l.map Peak.magnitude).sum / (l.length : ℚ) with ha
  rcases lt_or_ge ((l.filter fun p => a < p.magnitude).length) l.length with h | h
  · exact h
  · exfalso
    have hlen : (l.filter fun p => a < p.magnitude).length = l.length :=
      le_antisymm (List.length_filter_le _ _) h
    have heq : l.filter (fun p => a < p.magnitude) = l :=
      (List.filter_sublist l).eq_of_length hlen
    have hall : ∀ p ∈ l, a < p.magnitude := by
      intro p hp
      have := List.filter_eq_self.mp heq p hp
      exact of_decide_eq_true this
    have hsum : (l.length : ℚ) * a < (l.map Peak.magnitude).sum :=
      length_mul_lt_sum_of_forall_lt a l hne hall
    have hlen0 : (l.length : ℚ) ≠ 0 := by
      have hpos : 0 < l.length := List.length_pos.mpr hne
      exact_mod_cast Nat.pos_iff_ne_zero.mp hpos
    rw [ha, mul_div_cancel₀ _ hlen0] at hsum
    exact lt_irrefl _ hsum

/-- Each column emits at most five peaks. -/
theorem emitColumn_length_le (sg : Spectrogram) (t : ℕ) :
    (emitColumn sg t).length ≤ 5 := by
  unfold emitColumn
  by_cases hc : (columnCandidates sg t).isEmpty
  · simp [hc]
  · rw [if_neg hc]
    have hne : columnCandidates sg t ≠ [] := by
      intro h
      rw [h] at hc
      exact hc rfl
    have h1 := length_filter_gt_mean_lt (columnCandidates sg t) hne
    have h2 := columnCandidates_length_le sg t
    unfold columnMean
    omega

/-- A column with exactly one candidate emits nothing: a single candidate
equals the mean and never strictly exceeds it. -/
theorem emitColumn_eq_nil_of_single (sg : Spectrogram) (t : ℕ)
    (h : (columnCandidates sg t).length = 1) : emitColumn sg t = [] := by
  have hne : columnCandidates sg t ≠ [] := by
    intro hc
    rw [hc] at h
    cases h
  have h1 := length_filter_gt_mean_lt (columnCandidates sg t) hne
  have h0 : ((columnCandidates sg t).filter fun p =>
      ((columnCandidates sg t).map Peak.magnitude).sum /
        ((columnCandidates sg t).length : ℚ) < p.magnitude).length = 0 := by omega
  unfold emitColumn
  rw [if_neg]
  · unfold columnMean
    exact List.length_eq_zero.mp h0
  · intro hc
    rw [List.isEmpty_iff] at hc
    exact hne hc

/-- Peaks emitted for a column carry that column index as time. -/
theorem emitColumn_time {sg : Spectrogram} {t : ℕ} {p : Peak} (h : p ∈ emitColumn sg t) :
    p.time = (t : ℚ) :=
  columnCandidates_time (emitColumn_mem h).1

/-- A successful `extractPeaks` returns exactly the concatenated per-column
emissions. -/
theorem extractPeaks_success_eq {sg : Spectrogram} {ps : List Peak}
    (h : extractPeaks sg = .success ps) :
    ps = ((List.range (numTimeWindows sg)).map (emitColumn sg)).flatten := by
  unfold extractPeaks at h
  by_cases hg : (sg.isEmpty = true ∨ ((sg.headD []).isEmpty) = true)
  · rw [if_pos hg] at h
    cases h
  · rw [if_neg hg] at h
    rcases hv : validateBands sg.length (freqBands sg.length) with _ | msg
    · rw [hv] at h
      by_cases hemp :
          (((List.range (numTimeWindows sg)).map (emitColumn sg)).flatten).isEmpty = true
      · rw [if_pos hemp] at h
        cases h
      · rw [if_neg hemp] at h
        injection h with h
        exact h.symm
    · rw [hv] at h
      cases h

/-- C5 counterexample: the claim says a zero-width band is skipped rather
than reported.  On a non-empty 5 × 1 spectrogram of ones (so truncation
collapses the first band to zero width) the code reports the band error
instead of extracting the available peaks. -/
theorem C5_zero_width_band_failure :
    extractPeaks (List.replicate 5 [(1 : ℚ)]) = Result.failure "Invalid frequency band" := by
  decide

/-- C5 (amended): on a non-empty rectangular spectrogram, `extractPeaks`
validates the six bands up front and fails with "Invalid frequency band"
whenever one has zero width — which happens exactly when there are fewer than
10 frequency rows; with at least 10 rows it fails only when no time-window
column emits any peak. -/
theorem C5_band_validation (r0 : List ℚ) (rest : List (List ℚ)) (h0 : r0 ≠ []) :
    ((r0 :: rest : Spectrogram).length < 10 →
      extractPeaks (r0 :: rest) = .failure "Invalid frequency band") ∧
    (10 ≤ (r0 :: rest : Spectrogram).length →
      (extractPeaks (r0 :: rest) = .failure "No significant peaks found in spectrogram" ↔
        ∀ t < r0.length, emitColumn (r0 :: rest) t = [])) := by
  have hg : ¬((r0 :: rest : Spectrogram).isEmpty = true ∨
      (((r0 :: rest : Spectrogram).headD []).isEmpty) = true) := by
    intro hor
    rcases hor with hor | hor
    · cases hor
    · rw [List.headD_cons, List.isEmpty_iff] at hor
      exact h0 hor
  constructor
  · intro hlt
    unfold extractPeaks
    rw [if_neg hg, validateBands_small _ hlt]
  · intro hge
    have hr0 : (((r0 :: rest : Spectrogram).headD []).isEmpty) = false := by
      rw [List.headD_cons]
      cases hb : r0.isEmpty
      · rfl
      · exact absurd (List.isEmpty_iff.mp hb) h0
    have heq := extractPeaks_eq_of_valid (r0 :: rest) (by rfl) hr0 hge
    have hnt : numTimeWindows (r0 :: rest) = r0.length := rfl
    have hflat : ((((List.range (numTimeWindows (r0 :: rest))).map
        (emitColumn (r0 :: rest))).flatten) = [] ↔ ∀ t < r0.length,
          emitColumn (r0 :: rest) t = []) := by
      rw [List.flatten_eq_nil_iff]
      constructor
      · intro hall t ht
        exact hall _ (List.mem_map_of_mem _ (List.mem_range.mpr (hnt ▸ ht)))
      · intro hall l hl
        obtain ⟨t, ht, rfl⟩ := List.mem_map.mp hl
        exact hall t (hnt ▸ List.mem_range.mp ht)
    rw [heq]
    by_cases hemp : ((((List.range (numTimeWindows (r0 :: rest))).map
        (emitColumn (r0 :: rest))).flatten)).isEmpty = true
    · rw [if_pos hemp]
      constructor
      · intro _
        exact hflat.mp (List.isEmpty_iff.mp hemp)
      · intro _
        rfl
    · rw [if_neg hemp]
      constructor
      · intro hc
        cases hc
      · intro hall
        exact absurd (List.isEmpty_iff.mpr (hflat.mpr hall)) hemp

/-- Witness for C5 at a concrete input: a 5 × 1 spectrogram triggers the
zero-width-band failure path. -/
theorem C5_band_validation_witness :
    extractPeaks ([(1 : ℚ)] :: List.replicate 4 [(1 : ℚ)]) =
      Result.failure "Invalid frequency band" :=
  (C5_band_validation [(1 : ℚ)] (List.replicate 4 [(1 : ℚ)]) (by decide)).1 (by decide)

/-- C8: every successful `extractPeaks` result is non-decreasing in `.time`
(columns are appended in increasing time order), and every emitted peak is a
band-local candidate of its column whose magnitude strictly exceeds the
column's candidate mean. -/
theorem C8_time_ordered_emission (sg : Spectrogram) (ps : List Peak)
    (h : extractPeaks sg = .success ps) :
    ps.Pairwise (fun p q => p.time ≤ q.time) ∧
    ∀ p ∈ ps, ∃ t < numTimeWindows sg, p.time = (t : ℚ) ∧
      p ∈ columnCandidates sg t ∧ columnMean sg t < p.magnitude := by
  have hps := extractPeaks_success_eq h
  subst hps
  constructor
  · rw [List.pairwise_flatten]
    constructor
    · intro l hl
      obtain ⟨t, -, rfl⟩ := List.mem_map.mp hl
      refine List.pairwise_of_forall_mem_list ?_
      intro a ha b hb
      rw [emitColumn_time ha, emitColumn_time hb]
    · rw [List.pairwise_map]
      refine List.Pairwise.imp ?_ (List.pairwise_lt_range _)
      intro t1 t2 hlt x hx y hy
      rw [emitColumn_time hx, emitColumn_time hy]
      exact_mod_cast le_of_lt hlt
  · intro p hp
    obtain ⟨l, hl, hpl⟩ := List.mem_flatten.mp hp
    obtain ⟨t, ht, rfl⟩ := List.mem_map.mp hl
    obtain ⟨hc, hm⟩ := emitColumn_mem hpl
    exact ⟨t, List.mem_range.mp ht, columnCandidates_time hc, hc, hm⟩

/-- Witness for C8 at a concrete input: a 10 × 1 spectrogram whose first row
dominates emits the single peak `(0, 0, 10)`. -/
theorem C8_time_ordered_emission_witness :
    ([⟨0, 0, 10⟩] : List Peak).Pairwise (fun p q => p.time ≤ q.time) ∧
    ∀ p ∈ ([⟨0, 0, 10⟩] : List Peak),
      ∃ t < numTimeWindows ([10] :: List.replicate 9 [(1 : ℚ)]), p.time = (t : ℚ) ∧
        p ∈ columnCandidates ([10] :: List.replicate 9 [(1 : ℚ)]) t ∧
        columnMean ([10] :: List.replicate 9 [(1 : ℚ)]) t < p.magnitude :=
  C8_time_ordered_emission ([10] :: List.replicate 9 [(1 : ℚ)]) [⟨0, 0, 10⟩] (by decide)

/-- C10: the per-column mean threshold caps each column at five emitted peaks
(with exactly one candidate nothing is emitted), so a successful call returns
at most `5 ×` the number of time windows. -/
theorem C10_peak_budget (sg : Spectrogram) (ps : List Peak)
    (h : extractPeaks sg = .success ps) :
    ps.length ≤ 5 * numTimeWindows sg ∧
    ∀ t, (columnCandidates sg t).length = 1 → emitColumn sg t = [] := by
  refine ⟨?_, fun t => emitColumn_eq_nil_of_single sg t⟩
  have hps := extractPeaks_success_eq h
  subst hps
  rw [List.length_flatten, List.map_map]
  have hb : ∀ x ∈ (List.range (numTimeWindows sg)).map (List.length ∘ emitColumn sg),
      x ≤ 5 := by
    intro x hx
    obtain ⟨t, -, rfl⟩ := List.mem_map.mp hx
    exact emitColumn_length_le sg t
  calc ((List.range (numTimeWindows sg)).map (List.length ∘ emitColumn sg)).sum
      ≤ ((List.range (numTimeWindows sg)).map (List.length ∘ emitColumn sg)).length • 5 :=
        List.sum_le_card_nsmul _ 5 hb
    _ = 5 * numTimeWindows sg := by
        rw [List.length_map, List.length_range, smul_eq_mul, Nat.mul_comm]

/-- Witness for C10 at a concrete input: a 10 × 1 spectrogram emits one peak,
within the budget of five per column. -/
theorem C10_peak_budget_witness :
    ([⟨0, 0, 7⟩] : List Peak).length ≤
      5 * numTimeWindows ([7] :: List.replicate 9 [(1 : ℚ)]) ∧
    ∀ t, (columnCandidates ([7] :: List.replicate 9 [(1 : ℚ)]) t).length = 1 →
      emitColumn ([7] :: List.replicate 9 [(1 : ℚ)]) t = [] :=
  C10_peak_budget ([7] :: List.replicate 9 [(1 : ℚ)]) [⟨0, 0, 7⟩] (by decide)

/-- Every entry emitted for one anchor carries the caller's song id and the
anchor's time. -/
theorem anchorHashes_mem {anchor : Peak} {songId : ℤ} {n : ℕ} {rest : List Peak}
    {e : FingerprintHash} (h : e ∈ anchorHashes anchor songId n rest) :
    e.songId = songId ∧ e.time = anchor.time := by
  rw [anchorHashes_eq_aux] at h
  obtain ⟨t, -, rfl⟩ := List.mem_map.mp h
  exact ⟨rfl, rfl⟩

/-- Every emitted entry carries the song id and the time of some input peak. -/
theorem allHashes_mem {songId : ℤ} {peaks : List Peak} {e : FingerprintHash}
    (h : e ∈ allHashes songId peaks) :
    e.songId = songId ∧ ∃ p ∈ peaks, e.time = p.time := by
  induction peaks with
  | nil => cases h
  | cons anchor rest ih =>
    rw [allHashes, List.mem_append] at h
    rcases h with h | h
    · obtain ⟨hs, ht⟩ := anchorHashes_mem h
      exact ⟨hs, anchor, List.mem_cons_self anchor rest, ht⟩
    · obtain ⟨hs, p, hp, ht⟩ := ih h
      exact ⟨hs, p, List.mem_cons_of_mem anchor hp, ht⟩

/-- Inserting one entry preserves the bucket invariant. -/
theorem insertHash_spec (Q : FingerprintHash → Prop) (m : Fingerprint) (e : FingerprintHash)
    (hm : ∀ b ∈ m, b.2 ≠ [] ∧ ∀ x ∈ b.2, x.hash = b.1 ∧ Q x) (he : Q e) :
    ∀ b ∈ insertHash m e, b.2 ≠ [] ∧ ∀ x ∈ b.2, x.hash = b.1 ∧ Q x := by
  induction m with
  | nil =>
    intro b hb
    rw [insertHash] at hb
    rcases List.mem_singleton.mp hb with rfl
    refine ⟨by simp, ?_⟩
    intro x hx
    rcases List.mem_singleton.mp hx with rfl
    exact ⟨rfl, he⟩
  | cons kv m ih =>
    obtain ⟨k, es⟩ := kv
    intro b hb
    rw [insertHash] at hb
    by_cases hk : k = e.hash
    · rw [if_pos hk] at hb
      rcases List.mem_cons.mp hb with rfl | hb
      · have hkv := hm (k, es) (List.mem_cons_self _ _)
        refine ⟨by simp, ?_⟩
        intro x hx
        rcases List.mem_append.mp hx with hx | hx
        · exact hkv.2 x hx
        · rcases List.mem_singleton.mp hx with rfl
          exact ⟨hk.symm, he⟩
      · exact hm b (List.mem_cons_of_mem _ hb)
    · rw [if_neg hk] at hb
      rcases List.mem_cons.mp hb with rfl | hb
      · exact hm _ (List.mem_cons_self _ _)
      · exact ih (fun c hc => hm c (List.mem_cons_of_mem _ hc)) b hb

/-- The accumulated map satisfies the bucket invariant for any property of
the emitted entries. -/
theorem buildMap_spec (Q : FingerprintHash → Prop) (es : List FingerprintHash)
    (he : ∀ e ∈ es, Q e) :
    ∀ b ∈ buildMap es, b.2 ≠ [] ∧ ∀ x ∈ b.2, x.hash = b.1 ∧ Q x := by
  suffices h : ∀ m, (∀ b ∈ m, b.2 ≠ [] ∧ ∀ x ∈ b.2, x.hash = b.1 ∧ Q x) →
      ∀ b ∈ es.foldl insertHash m, b.2 ≠ [] ∧ ∀ x ∈ b.2, x.hash = b.1 ∧ Q x by
    exact h [] (by intro b hb; cases hb)
  induction es with
  | nil => intro m hm; exact hm
  | cons e es ih =>
    intro m hm
    rw [List.foldl_cons]
    exact ih (fun x hx => he x (List.mem_cons_of_mem e hx))
      (insertHash m e) (insertHash_spec Q m e hm (he e (List.mem_cons_self e es)))

/-- Inserting never empties the accumulated map. -/
theorem insertHash_ne_nil (m : Fingerprint) (e : FingerprintHash) : insertHash m e ≠ [] := by
  cases m with
  | nil => rw [insertHash]; exact List.cons_ne_nil _ _
  | cons kv m =>
    obtain ⟨k, es⟩ := kv
    rw [insertHash]
    by_cases hk : k = e.hash
    · rw [if_pos hk]; exact List.cons_ne_nil _ _
    · rw [if_neg hk]; exact List.cons_ne_nil _ _

/-- The accumulated map is empty exactly when no entry was emitted. -/
theorem buildMap_eq_nil_iff (es : List FingerprintHash) : buildMap es = [] ↔ es = [] := by
  constructor
  · intro h
    cases es with
    | nil => rfl
    | cons e rest =>
      exfalso
      have hne : ∀ es' : List FingerprintHash, ∀ m : Fingerprint, m ≠ [] →
          es'.foldl insertHash m ≠ [] := by
        intro es'
        induction es' with
        | nil => intro m hm; exact hm
        | cons x xs ih =>
          intro m hm
          rw [List.foldl_cons]
          exact ih (insertHash m x) (insertHash_ne_nil m x)
      exact hne rest (insertHash [] e) (insertHash_ne_nil [] e) h
  · intro h
    rw [h]
    rfl

/-- A successful `createFingerprint` returns exactly the accumulated map. -/
theorem createFingerprint_success_eq {peaks : List Peak} {songId : ℤ} {m : Fingerprint}
    (h : createFingerprint peaks songId = .success m) :
    m = buildMap (allHashes songId peaks) := by
  unfold createFingerprint at h
  by_cases hp : peaks.isEmpty = true
  · rw [if_pos hp] at h
    cases h
  · rw [if_neg hp] at h
    by_cases hs : songId < 0
    · rw [if_pos hs] at h
      cases h
    · rw [if_neg hs] at h
      by_cases hb : (buildMap (allHashes songId peaks)).isEmpty = true
      · rw [if_pos hb] at h
        cases h
      · rw [if_neg hb] at h
        injection h with h
        exact h.symm

/-- A successful `createFingerprint` never returns an empty map. -/
theorem createFingerprint_success_ne_nil {peaks : List Peak} {songId : ℤ} {m : Fingerprint}
    (h : createFingerprint peaks songId = .success m) : m ≠ [] := by
  unfold createFingerprint at h
  by_cases hp : peaks.isEmpty = true
  · rw [if_pos hp] at h
    cases h
  · rw [if_neg hp] at h
    by_cases hs : songId < 0
    · rw [if_pos hs] at h
      cases h
    · rw [if_neg hs] at h
      by_cases hb : (buildMap (allHashes songId peaks)).isEmpty = true
      · rw [if_pos hb] at h
        cases h
      · rw [if_neg hb] at h
        injection h with h
        intro hc
        rw [h, hc] at hb
        exact hb rfl

/-- C6: `createFingerprint` fails exactly when the peak list is empty, the
song id is negative, or the pairing scan produces zero hash entries; each of
these is a distinctly reported failure, and a success always carries a
non-empty map. -/
theorem C6_failure_conditions (peaks : List Peak) (songId : ℤ) :
    ((createFingerprint peaks songId).isSuccess = false ↔
      peaks = [] ∨ songId < 0 ∨ allHashes songId peaks = []) ∧
    (peaks = [] → createFingerprint peaks songId = .failure "Empty peaks vector provided") ∧
    (peaks ≠ [] → songId < 0 → createFingerprint peaks songId = .failure "Invalid song ID") ∧
    (∀ m, createFingerprint peaks songId = .success m → m ≠ []) := by
  unfold createFingerprint
  by_cases hp : peaks.isEmpty = true
  · have hpe : peaks = [] := List.isEmpty_iff.mp hp
    rw [if_pos hp]
    refine ⟨?_, fun _ => rfl, fun hne _ => absurd hpe hne, fun m hm => by cases hm⟩
    simp [Result.isSuccess, hpe]
  · have hpe : peaks ≠ [] := fun hc => hp (List.isEmpty_iff.mpr hc)
    rw [if_neg hp]
    by_cases hs : songId < 0
    · rw [if_pos hs]
      refine ⟨?_, fun hc => absurd hc hpe, fun _ _ => rfl, fun m hm => by cases hm⟩
      simp [Result.isSuccess, hpe, hs]
    · rw [if_neg hs]
      by_cases hb : (buildMap (allHashes songId peaks)).isEmpty = true
      · have hbe : allHashes songId peaks = [] :=
          (buildMap_eq_nil_iff _).mp (List.isEmpty_iff.mp hb)
        rw [if_pos hb]
        refine ⟨?_, fun hc => absurd hc hpe, fun _ hc => absurd hc hs,
          fun m hm => by cases hm⟩
        simp [Result.isSuccess, hpe, hs, hbe]
      · have hbe : allHashes songId peaks ≠ [] := by
          intro hc
          exact hb (List.isEmpty_iff.mpr ((buildMap_eq_nil_iff _).mpr hc))
        rw [if_neg hb]
        refine ⟨?_, fun hc => absurd hc hpe, fun _ hc => absurd hc hs, ?_⟩
        · simp [Result.isSuccess, hpe, hs, hbe]
        · intro m hm
          injection hm with hm
          intro hc
          rw [hm, hc] at hb
          exact hb rfl

/-- C9: in a successful fingerprint map every bucket is non-empty and
internally consistent: each stored entry's hash equals its bucket key, its
song id is the caller's, and its time is the time of some input peak (its
anchor). -/
theorem C9_bucket_invariants (peaks : List Peak) (songId : ℤ) (m : Fingerprint)
    (h : createFingerprint peaks songId = .success m) :
    m ≠ [] ∧ ∀ b ∈ m, b.2 ≠ [] ∧ ∀ e ∈ b.2, e.hash = b.1 ∧ e.songId = songId ∧
      ∃ p ∈ peaks, e.time = p.time := by
  constructor
  · exact createFingerprint_success_ne_nil h
  · have hm := createFingerprint_success_eq h
    subst hm
    intro b hb
    have := buildMap_spec (fun e => e.songId = songId ∧ ∃ p ∈ peaks, e.time = p.time)
      (allHashes songId peaks) (fun e he => allHashes_mem he) b hb
    exact ⟨this.1, fun e he => ⟨(this.2 e he).1, (this.2 e he).2.1, (this.2 e he).2.2⟩⟩

/-- Witness for C9 at a concrete input: two peaks one time unit apart with
song id 7 give one bucket with one consistent entry. -/
theorem C9_bucket_invariants_witness :
    ([(419840010, [⟨419840010, 0, 7⟩])] : Fingerprint) ≠ [] ∧
    ∀ b ∈ ([(419840010, [⟨419840010, 0, 7⟩])] : Fingerprint), b.2 ≠ [] ∧
      ∀ e ∈ b.2, e.hash = b.1 ∧ e.songId = (7 : ℤ) ∧
        ∃ p ∈ [(⟨100, 0, 1⟩ : Peak), ⟨100, 1, 1⟩], e.time = p.time :=
  C9_bucket_invariants [⟨100, 0, 1⟩, ⟨100, 1, 1⟩] 7
    [(419840010, [⟨419840010, 0, 7⟩])] (by decide)

end Sortify
